import Mathlib

/-!
Verification development for the `asr_demo` repository (`src/main.py`).

The file shallowly embeds the parts of the program the specification talks
about:

* the text-normalisation steps of `ASR.compute_error_rate` (lines 37-43),
  which apply the jiwer transforms RemovePunctuation, ToLowerCase and Strip;
* the jiwer word/character error-metric pipeline invoked at lines 46-51
  (`jiwer.process_words` and `jiwer.cer`), modelled down to the
  minimum-edit-distance alignment of token sequences;
* the accumulation loop of `ASR.vosk_recognition` (lines 117-127);
* the capture pipeline: the audio callback enqueuing frames (lines 140-144),
  the write loop `file.write(q.get())` (lines 219-220) and the
  `KeyboardInterrupt` exit (line 221), as a small-step transition system;
* the output-file opening logic (lines 204-213) over an abstract file system;
* the construction of the result table `model_data` (lines 236-256).

Machine text is modelled as `List Char` / `String`; rates are `ℚ`; fallible
library calls (jiwer raising `ValueError`) are `Except`.
-/

namespace AsrDemo

open List

/-! ### Character classes used by the Python/jiwer text transforms -/

/-- Whitespace characters recognised by Python's `str.strip()` and by the
regex class used in jiwer's `RemoveMultipleSpaces`: space, tab, newline,
carriage return, vertical tab, form feed. -/
def isSpaceCh (c : Char) : Bool :=
  decide (c.toNat ∈ [32, 9, 10, 13, 11, 12])

/-- Punctuation characters removed by jiwer's `RemovePunctuation` (Unicode
category P), restricted to the ASCII range the program's transcripts use. -/
def isPunctCh (c : Char) : Bool :=
  decide (c.toNat ∈ [33, 34, 35, 37, 38, 39, 40, 41, 42, 44, 45, 46, 47,
                     58, 59, 63, 64, 91, 92, 93, 95, 123, 125])

/-- ASCII lower-casing of a single character, as Python's `str.lower()` acts
on the ASCII letters (uppercase letters map to code point + 32, everything
else is unchanged). -/
def pyLower (c : Char) : Char :=
  if 65 ≤ c.toNat ∧ c.toNat ≤ 90 then Char.ofNat (c.toNat + 32) else c

/-- jiwer `RemovePunctuation` on the character list of a string. -/
def removePunctuationT (l : List Char) : List Char :=
  l.filter (fun c => !isPunctCh c)

/-- jiwer `ToLowerCase` on the character list of a string. -/
def toLowerCaseT (l : List Char) : List Char :=
  l.map pyLower

/-- jiwer `Strip` (Python `str.strip()`): drop leading and trailing
whitespace. -/
def stripT (l : List Char) : List Char :=
  ((l.dropWhile isSpaceCh).reverse.dropWhile isSpaceCh).reverse

/-- The normalisation performed by `ASR.compute_error_rate` on each of its
two arguments (src/main.py lines 37-43): remove punctuation, then
lower-case, then strip. -/
def normalizeChars (l : List Char) : List Char :=
  stripT (toLowerCaseT (removePunctuationT l))

/-- String version of `normalizeChars`. -/
def normalize_text (s : String) : String :=
  String.mk (normalizeChars s.data)

/-! ### Small character lemmas -/

theorem charOfNat_toNat (n : Nat) (h : n < 55296) : (Char.ofNat n).toNat = n := by
  unfold Char.ofNat
  split
  · rfl
  · next hh => exact absurd (Or.inl h) hh

theorem pyLower_toNat_of_upper (c : Char) (h : 65 ≤ c.toNat ∧ c.toNat ≤ 90) :
    (pyLower c).toNat = c.toNat + 32 := by
  unfold pyLower
  rw [if_pos h]
  exact charOfNat_toNat _ (by omega)

theorem pyLower_idem (c : Char) : pyLower (pyLower c) = pyLower c := by
  by_cases h : 65 ≤ c.toNat ∧ c.toNat ≤ 90
  · have ht : (pyLower c).toNat = c.toNat + 32 := pyLower_toNat_of_upper c h
    have hnot : ¬(65 ≤ (pyLower c).toNat ∧ (pyLower c).toNat ≤ 90) := by omega
    show (if 65 ≤ (pyLower c).toNat ∧ (pyLower c).toNat ≤ 90
        then Char.ofNat ((pyLower c).toNat + 32) else pyLower c) = pyLower c
    rw [if_neg hnot]
  · have he : pyLower c = c := by
      unfold pyLower
      rw [if_neg h]
    rw [he]
    exact he

theorem isPunctCh_false_of_lower_range (c : Char) (h1 : 97 ≤ c.toNat)
    (h2 : c.toNat ≤ 122) : isPunctCh c = false := by
  unfold isPunctCh
  simp only [decide_eq_false_iff_not, List.mem_cons, List.not_mem_nil, or_false]
  omega

theorem isPunctCh_pyLower (c : Char) (h : isPunctCh c = false) :
    isPunctCh (pyLower c) = false := by
  by_cases hu : 65 ≤ c.toNat ∧ c.toNat ≤ 90
  · have ht : (pyLower c).toNat = c.toNat + 32 := pyLower_toNat_of_upper c hu
    exact isPunctCh_false_of_lower_range _ (by omega) (by omega)
  · have he : pyLower c = c := by
      unfold pyLower
      rw [if_neg hu]
    rw [he]
    exact h

/-! ### Lemmas about `dropWhile` and `stripT` -/

theorem dropWhile_head_false (p : Char → Bool) :
    ∀ (l : List Char) (c : Char) (r : List Char),
      l.dropWhile p = c :: r → p c = false := by
  intro l
  induction l with
  | nil => intro c r h; simp [List.dropWhile] at h
  | cons a t ih =>
    intro c r h
    by_cases ha : p a
    · rw [List.dropWhile_cons_of_pos ha] at h
      exact ih c r h
    · rw [List.dropWhile_cons_of_neg ha] at h
      cases h
      exact Bool.eq_false_iff.mpr ha

theorem dropWhile_idem (p : Char → Bool) (l : List Char) :
    (l.dropWhile p).dropWhile p = l.dropWhile p := by
  cases h : l.dropWhile p with
  | nil => simp
  | cons c r =>
    have hc : p c = false := dropWhile_head_false p l c r h
    rw [List.dropWhile_cons_of_neg (by simp [hc])]

theorem dropWhile_sub (p : Char → Bool) (l : List Char) :
    l.dropWhile p <+ l := by
  induction l with
  | nil => simp
  | cons a t ih =>
    by_cases ha : p a
    · rw [List.dropWhile_cons_of_pos ha]
      exact ih.trans (List.sublist_cons_self a t)
    · rw [List.dropWhile_cons_of_neg ha]

theorem stripT_sub (l : List Char) : stripT l <+ l := by
  unfold stripT
  have h1 : (l.dropWhile isSpaceCh).reverse.dropWhile isSpaceCh <+
      (l.dropWhile isSpaceCh).reverse := dropWhile_sub _ _
  have h2 := h1.reverse
  simp only [List.reverse_reverse] at h2
  exact h2.trans (dropWhile_sub _ _)

theorem stripT_head_false (l : List Char) (c : Char) (r : List Char)
    (h : stripT l = c :: r) : isSpaceCh c = false := by
  have hy : stripT l ++ ((l.dropWhile isSpaceCh).reverse.takeWhile isSpaceCh).reverse
      = l.dropWhile isSpaceCh := by
    unfold stripT
    rw [← List.reverse_append, List.takeWhile_append_dropWhile, List.reverse_reverse]
  rw [h] at hy
  exact dropWhile_head_false isSpaceCh l c _ hy.symm

theorem stripT_idem (l : List Char) : stripT (stripT l) = stripT l := by
  have hL : (stripT l).dropWhile isSpaceCh = stripT l := by
    cases h : stripT l with
    | nil => simp
    | cons c r =>
      have hc := stripT_head_false l c r h
      rw [List.dropWhile_cons_of_neg (by simp [hc])]
  have hrev : (stripT l).reverse = (l.dropWhile isSpaceCh).reverse.dropWhile isSpaceCh := by
    unfold stripT
    rw [List.reverse_reverse]
  show (((stripT l).dropWhile isSpaceCh).reverse.dropWhile isSpaceCh).reverse = stripT l
  rw [hL, hrev, dropWhile_idem, ← hrev, List.reverse_reverse]

/-! ### Idempotence of the normalisation (claim C4) -/

theorem map_id_of_mem {α : Type} (f : α → α) :
    ∀ (l : List α), (∀ a ∈ l, f a = a) → l.map f = l := by
  intro l
  induction l with
  | nil => intro _; rfl
  | cons a t ih =>
    intro h
    simp only [List.map_cons]
    rw [h a (List.mem_cons_self a t), ih (fun b hb => h b (List.mem_cons_of_mem a hb))]

theorem normalizeChars_no_punct (l : List Char) :
    ∀ c ∈ normalizeChars l, isPunctCh c = false := by
  intro c hc
  have hmem : c ∈ toLowerCaseT (removePunctuationT l) :=
    (stripT_sub _).subset hc
  obtain ⟨a, ha, rfl⟩ := List.mem_map.mp hmem
  have hnp : isPunctCh a = false := by
    have := List.of_mem_filter ha
    simpa using this
  exact isPunctCh_pyLower a hnp

theorem normalizeChars_lower_stable (l : List Char) :
    ∀ c ∈ normalizeChars l, pyLower c = c := by
  intro c hc
  have hmem : c ∈ toLowerCaseT (removePunctuationT l) :=
    (stripT_sub _).subset hc
  obtain ⟨a, _, rfl⟩ := List.mem_map.mp hmem
  exact pyLower_idem a

theorem normalizeChars_idem (l : List Char) :
    normalizeChars (normalizeChars l) = normalizeChars l := by
  have h1 : removePunctuationT (normalizeChars l) = normalizeChars l := by
    unfold removePunctuationT
    rw [List.filter_eq_self]
    intro c hc
    simp [normalizeChars_no_punct l c hc]
  have h2 : toLowerCaseT (normalizeChars l) = normalizeChars l :=
    map_id_of_mem pyLower _ (normalizeChars_lower_stable l)
  show stripT (toLowerCaseT (removePunctuationT (normalizeChars l))) = normalizeChars l
  rw [h1, h2]
  exact stripT_idem _

/-- Claim C4: the text normalisation applied by `compute_error_rate`
(remove punctuation, lower-case, strip, in that order) is idempotent:
normalising an already-normalised string returns it unchanged. -/
theorem claim_C4_normalize_idempotent (s : String) :
    normalize_text (normalize_text s) = normalize_text s := by
  unfold normalize_text
  exact congrArg String.mk (normalizeChars_idem s.data)

/-! ### jiwer tokenisation

`jiwer.process_words` applies its default transform to each sentence:
RemoveMultipleSpaces, Strip, ReduceToListOfListOfWords (split on single
spaces, keeping only non-empty tokens).  `jiwer.cer` applies Strip and
ReduceToListOfListOfChars. -/

/-- jiwer `RemoveMultipleSpaces` (`re.sub` of two-or-more whitespace
characters by one space): each maximal run of at least two whitespace
characters becomes a single space; an isolated whitespace character is
left unchanged. -/
def rmsAux : Bool → List Char → List Char
  | _, [] => []
  | true, c :: rest =>
    if isSpaceCh c then rmsAux true rest else c :: rmsAux false rest
  | false, c :: rest =>
    if isSpaceCh c then
      match rest with
      | [] => [c]
      | d :: _ =>
        if isSpaceCh d then ' ' :: rmsAux true rest else c :: rmsAux false rest
    else c :: rmsAux false rest

/-- jiwer `RemoveMultipleSpaces` entry point. -/
def rmsT (l : List Char) : List Char :=
  rmsAux false l

/-- Python `str.split(" ")`: split on every single space character;
adjacent separators produce empty fields. -/
def splitOnSpace : List Char → List (List Char)
  | [] => [[]]
  | c :: rest =>
    match splitOnSpace rest with
    | [] => [[]]
    | w :: ws => if c = ' ' then [] :: w :: ws else (c :: w) :: ws

/-- jiwer `wer_default` transform of one sentence: RemoveMultipleSpaces,
Strip, then split into non-empty space-separated words. -/
def jiwerWords (s : String) : List (List Char) :=
  (splitOnSpace (stripT (rmsT s.data))).filter (fun w => !w.isEmpty)

/-- jiwer `cer_default` transform of one sentence: Strip, then the list of
characters. -/
def jiwerChars (s : String) : List Char :=
  stripT s.data

/-! ### Minimum-edit-distance alignment

jiwer aligns the two token sequences by a unit-cost minimum-edit-distance
alignment and counts hits, substitutions, deletions and insertions. -/

/-- Hit/substitution/deletion/insertion counts of an alignment. -/
structure EditCounts where
  hits : Nat
  subs : Nat
  dels : Nat
  ins : Nat
deriving Repr, DecidableEq

/-- Number of edit operations (substitutions + deletions + insertions). -/
def EditCounts.total (c : EditCounts) : Nat := c.subs + c.dels + c.ins

/-- Reference spec of the alignment: recursive unit-cost minimum-edit
alignment, matching equal heads and otherwise taking the cheapest of
substitution, deletion, insertion. -/
def alignN {α : Type} [DecidableEq α] : List α → List α → EditCounts
  | [], ys => ⟨0, 0, 0, ys.length⟩
  | _ :: xs, [] => ⟨0, 0, xs.length + 1, 0⟩
  | x :: xs, y :: ys =>
    if x = y then
      let c := alignN xs ys
      ⟨c.hits + 1, c.subs, c.dels, c.ins⟩
    else
      let cs := alignN xs ys
      let cd := alignN xs (y :: ys)
      let ci := alignN (x :: xs) ys
      if cs.total ≤ cd.total ∧ cs.total ≤ ci.total then
        ⟨cs.hits, cs.subs + 1, cs.dels, cs.ins⟩
      else if cd.total ≤ ci.total then
        ⟨cd.hits, cd.subs, cd.dels + 1, cd.ins⟩
      else
        ⟨ci.hits, ci.subs, ci.dels, ci.ins + 1⟩
termination_by xs ys => xs.length + ys.length
decreasing_by
  all_goals simp only [List.length_cons]
  all_goals omega

/-- One cell of the dynamic-programming table, combining the three
neighbouring cells exactly as `alignN` combines its three recursive
calls. -/
def alignCell {α : Type} [DecidableEq α] (x y : α) (diag del inse : EditCounts) :
    EditCounts :=
  if x = y then
    ⟨diag.hits + 1, diag.subs, diag.dels, diag.ins⟩
  else if diag.total ≤ del.total ∧ diag.total ≤ inse.total then
    ⟨diag.hits, diag.subs + 1, diag.dels, diag.ins⟩
  else if del.total ≤ inse.total then
    ⟨del.hits, del.subs, del.dels + 1, del.ins⟩
  else
    ⟨inse.hits, inse.subs, inse.dels, inse.ins + 1⟩

/-- Dynamic-programming base row: alignment of `[]` against every suffix
of `ys`. -/
def alignBase {α : Type} : List α → List EditCounts
  | [] => [⟨0, 0, 0, 0⟩]
  | _ :: ys => ⟨0, 0, 0, ys.length + 1⟩ :: alignBase ys

/-- Dynamic-programming row update: from the row for `xs` (against every
suffix of `ys`) to the row for `x :: xs`. -/
def alignStep {α : Type} [DecidableEq α] (x : α) : List α → List EditCounts → List EditCounts
  | [], prev =>
    [⟨(prev.headD ⟨0, 0, 0, 0⟩).hits, (prev.headD ⟨0, 0, 0, 0⟩).subs,
      (prev.headD ⟨0, 0, 0, 0⟩).dels + 1, (prev.headD ⟨0, 0, 0, 0⟩).ins⟩]
  | y :: ys, prev =>
    let below := alignStep x ys prev.tail
    alignCell x y (prev.tail.headD ⟨0, 0, 0, 0⟩) (prev.headD ⟨0, 0, 0, 0⟩)
        (below.headD ⟨0, 0, 0, 0⟩) :: below

/-- All dynamic-programming rows folded over the first sequence. -/
def alignRows {α : Type} [DecidableEq α] (xs ys : List α) : List EditCounts :=
  xs.foldr (fun x r => alignStep x ys r) (alignBase ys)

/-- Polynomial-time alignment used by the executable metric pipeline. -/
def alignDP {α : Type} [DecidableEq α] (xs ys : List α) : EditCounts :=
  (alignRows xs ys).headD ⟨0, 0, 0, 0⟩

theorem tails_shape {α : Type} (l : List α) : ∃ r, l.tails = l :: r := by
  cases l with
  | nil => exact ⟨[], by simp⟩
  | cons a t => exact ⟨t.tails, by simp⟩

theorem alignN_nil_right {α : Type} [DecidableEq α] (t : List α) :
    alignN t [] = ⟨0, 0, t.length, 0⟩ := by
  cases t with
  | nil => simp [alignN]
  | cons a r => simp [alignN]

theorem alignN_cons_cons {α : Type} [DecidableEq α] (x y : α) (xs ys : List α) :
    alignN (x :: xs) (y :: ys) =
      alignCell x y (alignN xs ys) (alignN xs (y :: ys)) (alignN (x :: xs) ys) := by
  simp only [alignN, alignCell]

theorem alignBase_eq {α : Type} [DecidableEq α] (ys : List α) :
    alignBase ys = ys.tails.map (fun t => alignN [] t) := by
  induction ys with
  | nil => simp [alignBase, alignN]
  | cons y ys ih =>
    simp only [alignBase, List.tails_cons, List.map_cons, ih, List.cons.injEq, and_true]
    simp [alignN]

theorem alignStep_eq {α : Type} [DecidableEq α] (x : α) (t : List α) :
    ∀ ys : List α,
      alignStep x ys (ys.tails.map (fun s => alignN t s)) =
        ys.tails.map (fun s => alignN (x :: t) s) := by
  intro ys
  induction ys with
  | nil =>
    show alignStep x [] [alignN t []] = [alignN (x :: t) []]
    rw [alignN_nil_right, alignN_nil_right]
    simp [alignStep, List.length_cons]
  | cons y ys ih =>
    obtain ⟨r, hr⟩ := tails_shape ys
    simp only [List.tails_cons, List.map_cons]
    rw [alignStep]
    simp only [List.tail_cons, List.headD_cons]
    rw [ih, hr]
    simp only [List.map_cons, List.headD_cons]
    rw [← alignN_cons_cons]

theorem alignRows_eq {α : Type} [DecidableEq α] (xs ys : List α) :
    alignRows xs ys = ys.tails.map (fun t => alignN xs t) := by
  induction xs with
  | nil =>
    show alignBase ys = _
    exact alignBase_eq ys
  | cons x xs ih =>
    show alignStep x ys (alignRows xs ys) = _
    rw [ih, alignStep_eq]

theorem alignDP_eq {α : Type} [DecidableEq α] (xs ys : List α) :
    alignDP xs ys = alignN xs ys := by
  unfold alignDP
  rw [alignRows_eq]
  obtain ⟨r, hr⟩ := tails_shape ys
  rw [hr]
  simp

/-! ### Properties of the alignment -/

theorem alignN_self {α : Type} [DecidableEq α] (l : List α) :
    alignN l l = ⟨l.length, 0, 0, 0⟩ := by
  induction l with
  | nil => simp [alignN]
  | cons a t ih =>
    rw [alignN_cons_cons]
    unfold alignCell
    rw [if_pos rfl, ih]
    simp [List.length_cons]

theorem alignN_counts {α : Type} [DecidableEq α] :
    ∀ (n : Nat) (xs ys : List α), xs.length + ys.length ≤ n →
      (alignN xs ys).hits + (alignN xs ys).subs + (alignN xs ys).dels = xs.length ∧
      (alignN xs ys).hits + (alignN xs ys).subs + (alignN xs ys).ins = ys.length := by
  intro n
  induction n with
  | zero =>
    intro xs ys h
    obtain rfl : xs = [] := List.length_eq_zero.mp (by omega)
    obtain rfl : ys = [] := List.length_eq_zero.mp (by omega)
    simp [alignN]
  | succ n ih =>
    intro xs ys h
    match xs, ys with
    | [], ys => simp [alignN]
    | x :: xs, [] => simp [alignN_nil_right]
    | x :: xs, y :: ys =>
      simp only [List.length_cons] at h
      have h1 := ih xs ys (by omega)
      have h2 := ih xs (y :: ys) (by simp only [List.length_cons]; omega)
      have h3 := ih (x :: xs) ys (by simp only [List.length_cons]; omega)
      simp only [List.length_cons] at h2 h3
      rw [alignN_cons_cons]
      unfold alignCell
      by_cases hxy : x = y
      · rw [if_pos hxy]
        simp only [List.length_cons]
        omega
      · rw [if_neg hxy]
        split
        · simp only [List.length_cons]
          omega
        · split
          · simp only [List.length_cons]
            omega
          · simp only [List.length_cons]
            omega

theorem alignN_total_cons_eq {α : Type} [DecidableEq α] (x y : α) (xs ys : List α)
    (h : x = y) :
    (alignN (x :: xs) (y :: ys)).total = (alignN xs ys).total := by
  rw [alignN_cons_cons]
  unfold alignCell
  rw [if_pos h]
  simp [EditCounts.total]

theorem alignN_total_cons_ne_cases {α : Type} [DecidableEq α] (x y : α) (xs ys : List α)
    (h : x ≠ y) :
    (alignN (x :: xs) (y :: ys)).total = (alignN xs ys).total + 1 ∨
    (alignN (x :: xs) (y :: ys)).total = (alignN xs (y :: ys)).total + 1 ∨
    (alignN (x :: xs) (y :: ys)).total = (alignN (x :: xs) ys).total + 1 := by
  rw [alignN_cons_cons]
  unfold alignCell
  rw [if_neg h]
  split
  · left
    simp [EditCounts.total]
    omega
  · split
    · right; left
      simp [EditCounts.total]
      omega
    · right; right
      simp [EditCounts.total]
      omega

theorem alignN_total_cons_ne_le_sub {α : Type} [DecidableEq α] (x y : α) (xs ys : List α)
    (h : x ≠ y) :
    (alignN (x :: xs) (y :: ys)).total ≤ (alignN xs ys).total + 1 := by
  rw [alignN_cons_cons]
  unfold alignCell
  rw [if_neg h]
  split
  · simp [EditCounts.total]
    omega
  · split
    · next hc hd =>
      simp only [not_and, not_le] at hc
      simp only [EditCounts.total] at hc hd ⊢
      omega
    · next hc hd =>
      simp only [not_and, not_le] at hc
      simp only [not_le] at hd
      simp only [EditCounts.total] at hc hd ⊢
      omega

theorem alignN_total_cons_ne_le_del {α : Type} [DecidableEq α] (x y : α) (xs ys : List α)
    (h : x ≠ y) :
    (alignN (x :: xs) (y :: ys)).total ≤ (alignN xs (y :: ys)).total + 1 := by
  rw [alignN_cons_cons]
  unfold alignCell
  rw [if_neg h]
  split
  · next hc =>
    simp only [EditCounts.total] at hc ⊢
    omega
  · split
    · simp [EditCounts.total]
      omega
    · next hc hd =>
      simp only [not_and, not_le] at hc
      simp only [not_le] at hd
      simp only [EditCounts.total] at hc hd ⊢
      omega

theorem alignN_total_cons_ne_le_ins {α : Type} [DecidableEq α] (x y : α) (xs ys : List α)
    (h : x ≠ y) :
    (alignN (x :: xs) (y :: ys)).total ≤ (alignN (x :: xs) ys).total + 1 := by
  rw [alignN_cons_cons]
  unfold alignCell
  rw [if_neg h]
  split
  · next hc =>
    simp only [EditCounts.total] at hc ⊢
    omega
  · split
    · next hc hd =>
      simp only [EditCounts.total] at hd ⊢
      omega
    · simp [EditCounts.total]
      omega

/-- An edit script between two token sequences: `Alignment xs ys c` holds
when `xs` can be turned into `ys` using `c` unit-cost edit operations
(substitution, deletion, insertion), matches being free.  The minimum `c`
for which this holds is the edit distance. -/
inductive Alignment {α : Type} : List α → List α → Nat → Prop where
  | nil : Alignment [] [] 0
  | hit (a : α) {xs ys : List α} {c : Nat} :
      Alignment xs ys c → Alignment (a :: xs) (a :: ys) c
  | sub (a b : α) {xs ys : List α} {c : Nat} :
      Alignment xs ys c → Alignment (a :: xs) (b :: ys) (c + 1)
  | del (a : α) {xs ys : List α} {c : Nat} :
      Alignment xs ys c → Alignment (a :: xs) ys (c + 1)
  | ins (b : α) {xs ys : List α} {c : Nat} :
      Alignment xs ys c → Alignment xs (b :: ys) (c + 1)

theorem alignment_nil_left {α : Type} : ∀ ys : List α, Alignment [] ys ys.length := by
  intro ys
  induction ys with
  | nil => exact Alignment.nil
  | cons b t ih => exact Alignment.ins b ih

theorem alignment_nil_right {α : Type} : ∀ xs : List α, Alignment xs [] xs.length := by
  intro xs
  induction xs with
  | nil => exact Alignment.nil
  | cons a t ih => exact Alignment.del a ih

/-- The counts computed by `alignN` are realised by an actual edit script. -/
theorem alignN_achieves {α : Type} [DecidableEq α] :
    ∀ (n : Nat) (xs ys : List α), xs.length + ys.length ≤ n →
      Alignment xs ys (alignN xs ys).total := by
  intro n
  induction n with
  | zero =>
    intro xs ys h
    obtain rfl : xs = [] := List.length_eq_zero.mp (by omega)
    obtain rfl : ys = [] := List.length_eq_zero.mp (by omega)
    have he : (alignN ([] : List α) ([] : List α)).total = 0 := by
      simp [alignN, EditCounts.total]
    rw [he]
    exact Alignment.nil
  | succ n ih =>
    intro xs ys h
    match xs, ys with
    | [], ys =>
      have he : (alignN ([] : List α) ys).total = ys.length := by
        simp [alignN, EditCounts.total]
      rw [he]
      exact alignment_nil_left ys
    | x :: xs, [] =>
      have he : (alignN (x :: xs) ([] : List α)).total = xs.length + 1 := by
        rw [alignN_nil_right]
        simp [EditCounts.total]
      rw [he]
      exact alignment_nil_right (x :: xs)
    | x :: xs, y :: ys =>
      simp only [List.length_cons] at h
      have h1 := ih xs ys (by omega)
      have h2 := ih xs (y :: ys) (by simp only [List.length_cons]; omega)
      have h3 := ih (x :: xs) ys (by simp only [List.length_cons]; omega)
      by_cases hxy : x = y
      · rw [alignN_total_cons_eq x y xs ys hxy]
        subst hxy
        exact Alignment.hit x h1
      · rcases alignN_total_cons_ne_cases x y xs ys hxy with he | he | he
        · rw [he]
          exact Alignment.sub x y h1
        · rw [he]
          exact Alignment.del x h2
        · rw [he]
          exact Alignment.ins y h3

/-- Auxiliary bounds: prepending one token to either sequence changes the
optimal edit cost by at most one, in both directions. -/
theorem alignN_total_aux {α : Type} [DecidableEq α] :
    ∀ (n : Nat) (xs ys : List α), xs.length + ys.length ≤ n →
      (∀ x : α, (alignN (x :: xs) ys).total ≤ (alignN xs ys).total + 1) ∧
      (∀ y : α, (alignN xs (y :: ys)).total ≤ (alignN xs ys).total + 1) ∧
      (∀ x : α, (alignN xs ys).total ≤ (alignN (x :: xs) ys).total + 1) ∧
      (∀ y : α, (alignN xs ys).total ≤ (alignN xs (y :: ys)).total + 1) := by
  intro n
  induction n with
  | zero =>
    intro xs ys h
    obtain rfl : xs = [] := List.length_eq_zero.mp (by omega)
    obtain rfl : ys = [] := List.length_eq_zero.mp (by omega)
    refine ⟨fun x => ?_, fun y => ?_, fun x => ?_, fun y => ?_⟩ <;>
      simp [alignN, alignN_nil_right, EditCounts.total]
  | succ n ih =>
    intro xs ys h
    refine ⟨fun x => ?_, fun y => ?_, fun x => ?_, fun y => ?_⟩
    · match ys with
      | [] =>
        rw [alignN_nil_right, alignN_nil_right]
        simp [EditCounts.total]
      | y :: ys =>
        simp only [List.length_cons] at h
        by_cases hxy : x = y
        · rw [alignN_total_cons_eq x y xs ys hxy]
          have h4 := (ih xs ys (by omega)).2.2.2 y
          omega
        · have hle := alignN_total_cons_ne_le_del x y xs ys hxy
          omega
    · match xs with
      | [] =>
        simp [alignN, EditCounts.total]
      | x :: xs =>
        simp only [List.length_cons] at h
        by_cases hxy : x = y
        · rw [alignN_total_cons_eq x y xs ys hxy]
          have h3 := (ih xs ys (by omega)).2.2.1 x
          omega
        · have hle := alignN_total_cons_ne_le_ins x y xs ys hxy
          omega
    · match ys with
      | [] =>
        rw [alignN_nil_right, alignN_nil_right]
        simp only [EditCounts.total, List.length_cons]
        omega
      | y :: ys =>
        simp only [List.length_cons] at h
        by_cases hxy : x = y
        · rw [alignN_total_cons_eq x y xs ys hxy]
          have h2 := (ih xs ys (by omega)).2.1 y
          omega
        · rcases alignN_total_cons_ne_cases x y xs ys hxy with he | he | he
          · have h2 := (ih xs ys (by omega)).2.1 y
            omega
          · omega
          · have h2 := (ih xs ys (by omega)).2.1 y
            have h3 := (ih xs ys (by omega)).2.2.1 x
            omega
    · match xs with
      | [] =>
        simp only [alignN, EditCounts.total, List.length_cons]
        omega
      | x :: xs =>
        simp only [List.length_cons] at h
        by_cases hxy : x = y
        · rw [alignN_total_cons_eq x y xs ys hxy]
          have h1 := (ih xs ys (by omega)).1 x
          omega
        · rcases alignN_total_cons_ne_cases x y xs ys hxy with he | he | he
          · have h1 := (ih xs ys (by omega)).1 x
            omega
          · have h1 := (ih xs ys (by omega)).1 x
            have h4 := (ih xs ys (by omega)).2.2.2 y
            omega
          · omega

/-- Minimality: no edit script between the two sequences costs less than
the alignment computed by `alignN`. -/
theorem alignN_min {α : Type} [DecidableEq α] {xs ys : List α} {c : Nat}
    (h : Alignment xs ys c) : (alignN xs ys).total ≤ c := by
  induction h with
  | nil => simp [alignN, EditCounts.total]
  | hit a h ih =>
    rw [alignN_total_cons_eq _ _ _ _ rfl]
    exact ih
  | sub a b h ih =>
    next xs ys c =>
      by_cases hab : a = b
      · rw [alignN_total_cons_eq _ _ _ _ hab]
        omega
      · have hle := alignN_total_cons_ne_le_sub a b xs ys hab
        omega
  | del a h ih =>
    next xs ys c =>
      have hle := (alignN_total_aux (xs.length + ys.length) xs ys (le_refl _)).1 a
      omega
  | ins b h ih =>
    next xs ys c =>
      have hle := (alignN_total_aux (xs.length + ys.length) xs ys (le_refl _)).2.1 b
      omega

/-- Rates returned by `jiwer.process_words` together with the alignment
counts they are computed from. -/
structure WordOutput where
  counts : EditCounts
  wer : ℚ
  mer : ℚ
  wil : ℚ
  wip : ℚ
deriving Repr, DecidableEq

/-- Error raised by jiwer when the reference is empty after its transform. -/
def jiwerEmptyRefMsg : String :=
  "ValueError: one or more references are empty strings"

/-- Model of `jiwer.process_words`: tokenise both sentences with the
default transform, fail if the reference has no tokens, otherwise align
and compute wer, mer, wil, wip from the counts exactly as jiwer does
(including the empty-hypothesis guard in wip). -/
def process_words (ref hyp : String) : Except String WordOutput :=
  let r := jiwerWords ref
  let h := jiwerWords hyp
  if r = [] then Except.error jiwerEmptyRefMsg
  else
    let c := alignDP r h
    let wer : ℚ := (c.total : ℚ) / ((c.hits + c.subs + c.dels : Nat) : ℚ)
    let mer : ℚ := (c.total : ℚ) / ((c.hits + c.subs + c.dels + c.ins : Nat) : ℚ)
    let wip : ℚ :=
      if 1 ≤ h.length then
        ((c.hits : ℚ) / (r.length : ℚ)) * ((c.hits : ℚ) / (h.length : ℚ))
      else 0
    let wil : ℚ := 1 - wip
    Except.ok ⟨c, wer, mer, wil, wip⟩

/-- Model of `jiwer.cer`: strip both sentences, fail on an empty reference,
otherwise align at character granularity and return the character error
rate. -/
def cer (ref hyp : String) : Except String ℚ :=
  let r := jiwerChars ref
  let h := jiwerChars hyp
  if r = [] then Except.error jiwerEmptyRefMsg
  else
    let c := alignDP r h
    Except.ok ((c.total : ℚ) / ((c.hits + c.subs + c.dels : Nat) : ℚ))

/-- Model of `ASR.compute_error_rate` (src/main.py lines 22-53): normalise
both sentences (remove punctuation, lower-case, strip), then return
`(wer, mer, wil, wip, cer)` from `jiwer.process_words` and `jiwer.cer`;
an exception raised by jiwer propagates out. -/
def compute_error_rate (reference hypothesis : String) :
    Except String (ℚ × ℚ × ℚ × ℚ × ℚ) :=
  let ref := normalize_text reference
  let hyp := normalize_text hypothesis
  match process_words ref hyp with
  | Except.error e => Except.error e
  | Except.ok w =>
    match cer ref hyp with
    | Except.error e => Except.error e
    | Except.ok cerv => Except.ok (w.wer, w.mer, w.wil, w.wip, cerv)

/-! ### Non-emptiness of the token lists -/

theorem rmsT_cons_nonspace (c : Char) (l : List Char) (hc : isSpaceCh c = false) :
    rmsT (c :: l) = c :: rmsT l := by
  show rmsAux false (c :: l) = c :: rmsAux false l
  conv_lhs => rw [rmsAux.eq_def]
  dsimp only
  rw [if_neg (by simp [hc])]

theorem stripT_append_eq (l : List Char) :
    stripT l ++ ((l.dropWhile isSpaceCh).reverse.takeWhile isSpaceCh).reverse
      = l.dropWhile isSpaceCh := by
  unfold stripT
  rw [← List.reverse_append, List.takeWhile_append_dropWhile, List.reverse_reverse]

theorem stripT_cons_nonspace (c : Char) (u : List Char) (hc : isSpaceCh c = false) :
    ∃ r, stripT (c :: u) = c :: r := by
  have hd : (c :: u).dropWhile isSpaceCh = c :: u :=
    List.dropWhile_cons_of_neg (by simp [hc])
  have happ := stripT_append_eq (c :: u)
  rw [hd] at happ
  cases hs : stripT (c :: u) with
  | nil =>
    exfalso
    rw [hs, List.nil_append] at happ
    have hcmem : c ∈ ((c :: u).reverse.takeWhile isSpaceCh).reverse := by
      rw [happ]
      exact List.mem_cons_self c u
    have := List.mem_takeWhile_imp (List.mem_reverse.mp hcmem)
    rw [hc] at this
    exact Bool.false_ne_true this
  | cons e r =>
    rw [hs, List.cons_append] at happ
    have he : e = c := (List.cons.injEq _ _ _ _ |>.mp happ).1
    exact ⟨r, by rw [he]⟩

theorem splitOnSpace_ne_nil : ∀ l : List Char, splitOnSpace l ≠ [] := by
  intro l
  cases l with
  | nil => simp [splitOnSpace]
  | cons c rest =>
    unfold splitOnSpace
    split
    · simp
    · split <;> simp

theorem jiwerWords_ne_nil (s : String) (c : Char) (u : List Char)
    (hd : s.data = c :: u) (hc : isSpaceCh c = false) : jiwerWords s ≠ [] := by
  unfold jiwerWords
  rw [hd, rmsT_cons_nonspace c u hc]
  obtain ⟨r, hr⟩ := stripT_cons_nonspace c (rmsT u) hc
  rw [hr]
  have hcs : ¬c = ' ' := by
    intro he
    rw [he] at hc
    simp [isSpaceCh] at hc
  cases hsp : splitOnSpace r with
  | nil => exact absurd hsp (splitOnSpace_ne_nil r)
  | cons w ws =>
    unfold splitOnSpace
    rw [hsp]
    show ¬List.filter (fun t => !t.isEmpty) (if c = ' ' then [] :: w :: ws else (c :: w) :: ws) = []
    rw [if_neg hcs]
    simp [List.filter]

theorem string_ne_empty_data (s : String) (h : s ≠ "") : s.data ≠ [] := by
  intro hd
  apply h
  cases s with
  | mk d =>
    cases hd
    rfl

theorem normalize_head_nonspace (l : List Char) (c : Char) (r : List Char)
    (h : normalizeChars l = c :: r) : isSpaceCh c = false :=
  stripT_head_false (toLowerCaseT (removePunctuationT l)) c r h

theorem jiwerWords_normalize_ne_nil (t : String) (h : normalize_text t ≠ "") :
    jiwerWords (normalize_text t) ≠ [] := by
  have hd : (normalize_text t).data = normalizeChars t.data := rfl
  cases hc : normalizeChars t.data with
  | nil => exact absurd (hd.trans hc) (string_ne_empty_data _ h)
  | cons c r =>
    exact jiwerWords_ne_nil _ c r (hd.trans hc) (normalize_head_nonspace t.data c r hc)

theorem jiwerChars_normalize (t : String) :
    jiwerChars (normalize_text t) = (normalize_text t).data := by
  show stripT (normalizeChars t.data) = normalizeChars t.data
  unfold normalizeChars
  exact stripT_idem _

/-! ### Evaluating the pipeline on special inputs -/

theorem length_ne_zero_of_ne_nil {α : Type} {l : List α} (h : l ≠ []) : l.length ≠ 0 := by
  intro h0
  exact h (List.length_eq_zero.mp h0)

theorem process_words_self (s : String) (hw : jiwerWords s ≠ []) :
    process_words s s = Except.ok ⟨⟨(jiwerWords s).length, 0, 0, 0⟩, 0, 0, 0, 1⟩ := by
  have hlen := length_ne_zero_of_ne_nil hw
  have hq : (((jiwerWords s).length : Nat) : ℚ) ≠ 0 := Nat.cast_ne_zero.mpr hlen
  simp only [process_words]
  rw [if_neg hw, alignDP_eq, alignN_self]
  simp only [EditCounts.total]
  rw [if_pos (Nat.one_le_iff_ne_zero.mpr hlen)]
  norm_num [div_self hq]

theorem cer_self (s : String) (hc : jiwerChars s ≠ []) : cer s s = Except.ok 0 := by
  simp only [cer]
  rw [if_neg hc, alignDP_eq, alignN_self]
  simp [EditCounts.total]

theorem process_words_empty_hyp (ref : String) (hw : jiwerWords ref ≠ []) :
    process_words ref "" = Except.ok ⟨⟨0, 0, (jiwerWords ref).length, 0⟩, 1, 1, 1, 0⟩ := by
  have hlen := length_ne_zero_of_ne_nil hw
  have hq : (((jiwerWords ref).length : Nat) : ℚ) ≠ 0 := Nat.cast_ne_zero.mpr hlen
  have hwe : jiwerWords "" = [] := rfl
  simp only [process_words]
  rw [if_neg hw, hwe, alignDP_eq, alignN_nil_right]
  simp only [EditCounts.total]
  rw [if_neg (by simp)]
  norm_num [div_self hq]

theorem cer_empty_hyp (ref : String) (hc : jiwerChars ref ≠ []) :
    cer ref "" = Except.ok 1 := by
  have hlen := length_ne_zero_of_ne_nil hc
  have hq : (((jiwerChars ref).length : Nat) : ℚ) ≠ 0 := Nat.cast_ne_zero.mpr hlen
  have hce : jiwerChars "" = [] := rfl
  simp only [cer]
  rw [if_neg hc, hce, alignDP_eq, alignN_nil_right]
  simp only [EditCounts.total]
  norm_num [div_self hq]

/-- Claim C5: for every non-empty normalised string, comparing it against
itself yields wer = 0, mer = 0, wil = 0, wip = 1 and cer = 0. -/
theorem claim_C5_identity_metrics (s : String) (hne : s ≠ "")
    (hnorm : normalize_text s = s) :
    compute_error_rate s s = Except.ok (0, 0, 0, 1, 0) := by
  have hw : jiwerWords s ≠ [] := by
    have h1 := jiwerWords_normalize_ne_nil s (by rw [hnorm]; exact hne)
    rwa [hnorm] at h1
  have hchars : jiwerChars s ≠ [] := by
    have h1 : jiwerChars (normalize_text s) = (normalize_text s).data :=
      jiwerChars_normalize s
    rw [hnorm] at h1
    rw [h1]
    exact string_ne_empty_data s hne
  simp only [compute_error_rate]
  rw [hnorm, process_words_self s hw, cer_self s hchars]

/-- Witness for claim C5 at the concrete input "abc". -/
theorem claim_C5_witness : compute_error_rate "abc" "abc" = Except.ok (0, 0, 0, 1, 0) :=
  claim_C5_identity_metrics "abc" (by decide) (by decide)

/-- Claim C6: for a reference that is non-empty after normalisation and an
empty hypothesis, every reference word is counted as a deletion and
wer = 1 (jiwer additionally yields mer = 1, wil = 1, wip = 0, cer = 1). -/
theorem claim_C6_empty_hypothesis_max_error (ref : String)
    (h : normalize_text ref ≠ "") :
    compute_error_rate ref "" = Except.ok (1, 1, 1, 0, 1) ∧
    alignDP (jiwerWords (normalize_text ref)) (jiwerWords (normalize_text "")) =
      ⟨0, 0, (jiwerWords (normalize_text ref)).length, 0⟩ := by
  have hw := jiwerWords_normalize_ne_nil ref h
  have hchars : jiwerChars (normalize_text ref) ≠ [] := by
    rw [jiwerChars_normalize]
    exact string_ne_empty_data _ h
  constructor
  · have hn0 : normalize_text "" = "" := rfl
    simp only [compute_error_rate]
    rw [hn0, process_words_empty_hyp _ hw, cer_empty_hyp _ hchars]
  · have he : jiwerWords (normalize_text "") = [] := rfl
    rw [he, alignDP_eq, alignN_nil_right]

/-- Witness for claim C6 at the concrete reference "hello world". -/
theorem claim_C6_witness :
    compute_error_rate "hello world" "" = Except.ok (1, 1, 1, 0, 1) ∧
    alignDP (jiwerWords (normalize_text "hello world")) (jiwerWords (normalize_text "")) =
      ⟨0, 0, (jiwerWords (normalize_text "hello world")).length, 0⟩ :=
  claim_C6_empty_hypothesis_max_error "hello world" (by decide)

/-- Claim C9: whenever the reference normalises to the empty string, the
metric computation does not return a metrics tuple: the jiwer error
propagates out of `compute_error_rate`, whatever the hypothesis is. -/
theorem claim_C9_empty_reference_error (ref hyp : String)
    (h : normalize_text ref = "") :
    compute_error_rate ref hyp = Except.error jiwerEmptyRefMsg := by
  have hw : jiwerWords "" = [] := rfl
  have hpw : process_words "" (normalize_text hyp) = Except.error jiwerEmptyRefMsg := by
    simp only [process_words]
    rw [if_pos hw]
  simp only [compute_error_rate]
  rw [h, hpw]

/-- Witness for claim C9 at the punctuation-only reference "?!". -/
theorem claim_C9_witness : compute_error_rate "?!" "x" = Except.error jiwerEmptyRefMsg :=
  claim_C9_empty_reference_error "?!" "x" (by decide)

theorem jiwerWords_empty : jiwerWords "" = [] := rfl

/-- Decidable equality for `Except`, used to evaluate the pipeline on
concrete inputs. -/
instance exceptDecEq {ε α : Type} [DecidableEq ε] [DecidableEq α] :
    DecidableEq (Except ε α) := fun a b =>
  match a, b with
  | Except.error e₁, Except.error e₂ =>
    if h : e₁ = e₂ then isTrue (by rw [h])
    else isFalse (by intro hc; cases hc; exact h rfl)
  | Except.ok a₁, Except.ok a₂ =>
    if h : a₁ = a₂ then isTrue (by rw [h])
    else isFalse (by intro hc; cases hc; exact h rfl)
  | Except.error _, Except.ok _ => isFalse (by intro hc; cases hc)
  | Except.ok _, Except.error _ => isFalse (by intro hc; cases hc)

theorem process_words_eq (ref hyp : String) (h : jiwerWords ref ≠ []) :
    process_words ref hyp = Except.ok
      ⟨alignDP (jiwerWords ref) (jiwerWords hyp),
       ((alignDP (jiwerWords ref) (jiwerWords hyp)).total : ℚ) /
         (((alignDP (jiwerWords ref) (jiwerWords hyp)).hits +
           (alignDP (jiwerWords ref) (jiwerWords hyp)).subs +
           (alignDP (jiwerWords ref) (jiwerWords hyp)).dels : Nat) : ℚ),
       ((alignDP (jiwerWords ref) (jiwerWords hyp)).total : ℚ) /
         (((alignDP (jiwerWords ref) (jiwerWords hyp)).hits +
           (alignDP (jiwerWords ref) (jiwerWords hyp)).subs +
           (alignDP (jiwerWords ref) (jiwerWords hyp)).dels +
           (alignDP (jiwerWords ref) (jiwerWords hyp)).ins : Nat) : ℚ),
       1 - (if 1 ≤ (jiwerWords hyp).length then
             ((alignDP (jiwerWords ref) (jiwerWords hyp)).hits : ℚ) /
               ((jiwerWords ref).length : ℚ) *
               (((alignDP (jiwerWords ref) (jiwerWords hyp)).hits : ℚ) /
                 ((jiwerWords hyp).length : ℚ))
            else 0),
       if 1 ≤ (jiwerWords hyp).length then
             ((alignDP (jiwerWords ref) (jiwerWords hyp)).hits : ℚ) /
               ((jiwerWords ref).length : ℚ) *
               (((alignDP (jiwerWords ref) (jiwerWords hyp)).hits : ℚ) /
                 ((jiwerWords hyp).length : ℚ))
            else 0⟩ := by
  simp only [process_words]
  rw [if_neg h]

theorem cer_eq (ref hyp : String) (h : jiwerChars ref ≠ []) :
    cer ref hyp = Except.ok
      (((alignDP (jiwerChars ref) (jiwerChars hyp)).total : ℚ) /
        (((alignDP (jiwerChars ref) (jiwerChars hyp)).hits +
          (alignDP (jiwerChars ref) (jiwerChars hyp)).subs +
          (alignDP (jiwerChars ref) (jiwerChars hyp)).dels : Nat) : ℚ)) := by
  simp only [cer]
  rw [if_neg h]

/-- Claim C7: the word error rate returned by `compute_error_rate` equals
(S+D+I) divided by the number of reference words, where S+D+I is realised
by an edit script between the reference and hypothesis word sequences and
no edit script does better (minimum-edit-distance alignment); on the
concrete pair "the quick brown fox" / "the quick fox" the result is
wer = 1/4 (one deletion over four reference words). -/
theorem claim_C7_wer_min_edit (ref hyp : String)
    (h : jiwerWords (normalize_text ref) ≠ []) :
    (∃ m wl wp cv, compute_error_rate ref hyp = Except.ok
        (((alignDP (jiwerWords (normalize_text ref)) (jiwerWords (normalize_text hyp))).total : ℚ)
            / (((jiwerWords (normalize_text ref)).length : Nat) : ℚ), m, wl, wp, cv)) ∧
    Alignment (jiwerWords (normalize_text ref)) (jiwerWords (normalize_text hyp))
      (alignDP (jiwerWords (normalize_text ref)) (jiwerWords (normalize_text hyp))).total ∧
    (∀ c, Alignment (jiwerWords (normalize_text ref)) (jiwerWords (normalize_text hyp)) c →
        (alignDP (jiwerWords (normalize_text ref)) (jiwerWords (normalize_text hyp))).total ≤ c) ∧
    compute_error_rate "the quick brown fox" "the quick fox" =
      Except.ok (1/4, 1/4, 1/4, 3/4, 6/19) := by
  have hpw := process_words_eq (normalize_text ref) (normalize_text hyp) h
  have hch : jiwerChars (normalize_text ref) ≠ [] := by
    rw [jiwerChars_normalize]
    apply string_ne_empty_data
    intro he
    rw [he] at h
    exact h jiwerWords_empty
  have hcv := cer_eq (normalize_text ref) (normalize_text hyp) hch
  have hcounts := (alignN_counts
    ((jiwerWords (normalize_text ref)).length + (jiwerWords (normalize_text hyp)).length)
    (jiwerWords (normalize_text ref)) (jiwerWords (normalize_text hyp)) (le_refl _)).1
  have hden : ((alignDP (jiwerWords (normalize_text ref)) (jiwerWords (normalize_text hyp))).hits +
      (alignDP (jiwerWords (normalize_text ref)) (jiwerWords (normalize_text hyp))).subs +
      (alignDP (jiwerWords (normalize_text ref)) (jiwerWords (normalize_text hyp))).dels : Nat) =
      (jiwerWords (normalize_text ref)).length := by
    rw [alignDP_eq]
    exact hcounts
  refine ⟨?_, ?_, ?_, ?_⟩
  · simp only [compute_error_rate]
    rw [hpw]
    dsimp only
    rw [hcv]
    dsimp only
    rw [hden]
    exact ⟨_, _, _, _, rfl⟩
  · rw [alignDP_eq]
    exact alignN_achieves
      ((jiwerWords (normalize_text ref)).length + (jiwerWords (normalize_text hyp)).length)
      _ _ (le_refl _)
  · intro c hc
    rw [alignDP_eq]
    exact alignN_min hc
  · have hw4 : jiwerWords (normalize_text "the quick brown fox") ≠ [] := by decide
    have hch4 : jiwerChars (normalize_text "the quick brown fox") ≠ [] := by decide
    have hA : alignDP (jiwerWords (normalize_text "the quick brown fox"))
        (jiwerWords (normalize_text "the quick fox")) = ⟨3, 0, 1, 0⟩ := by decide
    have hC : alignDP (jiwerChars (normalize_text "the quick brown fox"))
        (jiwerChars (normalize_text "the quick fox")) = ⟨13, 0, 6, 0⟩ := by decide
    have hHL : (jiwerWords (normalize_text "the quick fox")).length = 3 := by decide
    have hRL : (jiwerWords (normalize_text "the quick brown fox")).length = 4 := by decide
    simp only [compute_error_rate]
    rw [process_words_eq _ _ hw4]
    dsimp only
    rw [cer_eq _ _ hch4]
    dsimp only
    rw [hA, hC, hHL, hRL]
    simp only [EditCounts.total]
    norm_num

/-- Witness for claim C7 at the concrete pair from the specification. -/
theorem claim_C7_witness :
    (∃ m wl wp cv, compute_error_rate "the quick brown fox" "the quick fox" = Except.ok
        (((alignDP (jiwerWords (normalize_text "the quick brown fox"))
              (jiwerWords (normalize_text "the quick fox"))).total : ℚ)
            / (((jiwerWords (normalize_text "the quick brown fox")).length : Nat) : ℚ),
          m, wl, wp, cv)) ∧
    Alignment (jiwerWords (normalize_text "the quick brown fox"))
      (jiwerWords (normalize_text "the quick fox"))
      (alignDP (jiwerWords (normalize_text "the quick brown fox"))
        (jiwerWords (normalize_text "the quick fox"))).total ∧
    (∀ c, Alignment (jiwerWords (normalize_text "the quick brown fox"))
        (jiwerWords (normalize_text "the quick fox")) c →
        (alignDP (jiwerWords (normalize_text "the quick brown fox"))
          (jiwerWords (normalize_text "the quick fox"))).total ≤ c) ∧
    compute_error_rate "the quick brown fox" "the quick fox" =
      Except.ok (1/4, 1/4, 1/4, 3/4, 6/19) :=
  claim_C7_wer_min_edit "the quick brown fox" "the quick fox" (by decide)

/-! ### The capture pipeline (src/main.py lines 140-144, 182, 212-222) -/

/-- State of the capture pipeline: the contents of the FIFO `queue.Queue`,
the blocks written to the sound file so far, the history of all blocks the
callback has enqueued, and whether the `KeyboardInterrupt` handler has
taken over (after which the loop no longer writes and the stream and file
are closed). -/
structure CapState (α : Type) where
  queued : List α
  written : List α
  enqueued : List α
  closed : Bool
deriving Repr, DecidableEq

/-- Initial state of a capture run: nothing queued, written or enqueued. -/
def initState (α : Type) : CapState α := ⟨[], [], [], false⟩

/-- One step of the capture pipeline, translated from the source: `enq` is
the audio callback `q.put(indata.copy())` (line 144); `deq` is one
iteration of the recording loop `file.write(q.get())` (lines 219-220),
which removes the oldest queued block and appends it to the file; `intr`
is the `KeyboardInterrupt` (line 221), which exits the loop — blocks still
queued are never written — and closes the stream and the file. -/
inductive CapStep {α : Type} : CapState α → CapState α → Prop where
  | enq (f : α) (q w e : List α) :
      CapStep ⟨q, w, e, false⟩ ⟨q ++ [f], w, e ++ [f], false⟩
  | deq (f : α) (q w e : List α) :
      CapStep ⟨f :: q, w, e, false⟩ ⟨q, w ++ [f], e, false⟩
  | intr (q w e : List α) :
      CapStep ⟨q, w, e, false⟩ ⟨q, w, e, true⟩

/-- States reachable from the start of a capture run. -/
inductive CapReachable {α : Type} : CapState α → Prop where
  | init : CapReachable (initState α)
  | step {s t : CapState α} : CapReachable s → CapStep s t → CapReachable t

theorem cap_invariant {α : Type} {s : CapState α} (h : CapReachable s) :
    s.enqueued = s.written ++ s.queued := by
  induction h with
  | init => rfl
  | step hr hs ih =>
    cases hs with
    | enq f q w e =>
      simp only at ih ⊢
      rw [ih, List.append_assoc]
    | deq f q w e =>
      simp only at ih ⊢
      rw [ih, List.append_assoc]
      rfl
    | intr q w e => exact ih

/-- Claim C10: frames flow through a FIFO queue with a single producer (the
callback) and a single consumer (the write loop); in every reachable state
the written sequence is an in-order, duplication-free part of the enqueued
sequence — in fact a prefix of it, the still-queued frames being exactly
the missing suffix. -/
theorem claim_C10_fifo_order {α : Type} (s : CapState α) (h : CapReachable s) :
    s.written <+: s.enqueued ∧ s.enqueued = s.written ++ s.queued := by
  have hi := cap_invariant h
  exact ⟨⟨s.queued, hi.symm⟩, hi⟩

/-- Witness for claim C10 after the run: enqueue 1, enqueue 2, dequeue. -/
theorem claim_C10_witness :
    (⟨[2], [1], [1, 2], false⟩ : CapState Nat).written <+:
      (⟨[2], [1], [1, 2], false⟩ : CapState Nat).enqueued ∧
    (⟨[2], [1], [1, 2], false⟩ : CapState Nat).enqueued =
      (⟨[2], [1], [1, 2], false⟩ : CapState Nat).written ++
        (⟨[2], [1], [1, 2], false⟩ : CapState Nat).queued :=
  claim_C10_fifo_order _
    (CapReachable.step
      (CapReachable.step
        (CapReachable.step CapReachable.init (CapStep.enq 1 [] [] []))
        (CapStep.enq 2 [1] [] [1]))
      (CapStep.deq 1 [2] [] [1, 2]))

/-- Counterexample to claim C1 as stated: the run "enqueue frame 7, then
interrupt" reaches a closed state in which frame 7 was enqueued before the
cancellation but was never written — the `KeyboardInterrupt` exits the
write loop without draining the queue. -/
theorem claim_C1_counterexample :
    CapReachable (⟨[7], [], [7], true⟩ : CapState Nat) ∧
    (⟨[7], [], [7], true⟩ : CapState Nat).written ≠
      (⟨[7], [], [7], true⟩ : CapState Nat).enqueued := by
  constructor
  · exact CapReachable.step
      (CapReachable.step CapReachable.init (CapStep.enq 7 [] [] []))
      (CapStep.intr [7] [] [7])
  · decide

/-- Amended claim C1: on cancellation the file contains, in order, exactly
the frames dequeued before the interrupt — a prefix of the enqueued
frames; frames still queued when the interrupt fires are lost, so whenever
the queue is non-empty at cancellation some enqueued frames are missing
from the file. -/
theorem claim_C1_amended {α : Type} (s : CapState α) (h : CapReachable s)
    (hc : s.closed = true) :
    s.enqueued = s.written ++ s.queued ∧
    (s.queued ≠ [] → s.written ≠ s.enqueued) := by
  have hi := cap_invariant h
  refine ⟨hi, ?_⟩
  intro hq hweq
  have h2 : s.written ++ s.queued = s.written ++ [] := by
    rw [← hi, ← hweq, List.append_nil]
  exact hq (List.append_cancel_left h2)

/-- Witness for amended claim C1 at the closed state reached by "enqueue 7,
interrupt". -/
theorem claim_C1_amended_witness :
    (⟨[7], [], [7], true⟩ : CapState Nat).enqueued =
      (⟨[7], [], [7], true⟩ : CapState Nat).written ++
        (⟨[7], [], [7], true⟩ : CapState Nat).queued ∧
    ((⟨[7], [], [7], true⟩ : CapState Nat).queued ≠ [] →
      (⟨[7], [], [7], true⟩ : CapState Nat).written ≠
        (⟨[7], [], [7], true⟩ : CapState Nat).enqueued) :=
  claim_C1_amended _
    (CapReachable.step
      (CapReachable.step CapReachable.init (CapStep.enq 7 [] [] []))
      (CapStep.intr [7] [] [7]))
    rfl

/-! ### The evaluation handler's result table (src/main.py lines 236-256) -/

/-- Order in which the `KeyboardInterrupt` handler invokes the backends:
whisper base model (line 236), whisper large model (line 238), vosk small
model (line 243), vosk large model (line 247). -/
def invocation_order : List String :=
  ["whisper_small", "whisper_large", "vosk_small", "vosk_large"]

/-- Model of the handler's metric collection and of `model_data`
(lines 236-256).  Each backend result is a pair (sentence, elapsed time);
like the source, which binds every elapsed time to `_`, the handler
ignores the times, scores every sentence against the reference "Test",
and lists the rows in the literal order of `model_data`: vosk_small,
vosk_large, whisper_small, whisper_large. -/
def evaluation_report (whisper_s whisper_l vosk_s vosk_l : String × ℚ) :
    List (String × Except String (ℚ × ℚ × ℚ × ℚ × ℚ)) :=
  let ws := compute_error_rate "Test" whisper_s.1
  let wl := compute_error_rate "Test" whisper_l.1
  let vs := compute_error_rate "Test" vosk_s.1
  let vl := compute_error_rate "Test" vosk_l.1
  [("vosk_small", vs), ("vosk_large", vl), ("whisper_small", ws), ("whisper_large", wl)]

/-- Counterexample to claim C2 as stated: the report's row order is not the
order in which the backends were invoked — the vosk rows come first in
`model_data` although the whisper backends were invoked first. -/
theorem claim_C2_counterexample :
    (evaluation_report ("Test", 1) ("Test", 2) ("Test", 3) ("Test", 4)).map Prod.fst ≠
      invocation_order := by
  intro h
  have h1 : (["vosk_small", "vosk_large", "whisper_small", "whisper_large"] : List String) =
      invocation_order := h
  simp [invocation_order] at h1

/-- Amended claim C2: the report has exactly one row per backend and its
row order is the fixed sequence vosk_small, vosk_large, whisper_small,
whisper_large — independent of the transcribed sentences and of every
backend's elapsed time, but different from the invocation order. -/
theorem claim_C2_amended (whisper_s whisper_l vosk_s vosk_l : String × ℚ) :
    (evaluation_report whisper_s whisper_l vosk_s vosk_l).map Prod.fst =
      ["vosk_small", "vosk_large", "whisper_small", "whisper_large"] ∧
    (evaluation_report whisper_s whisper_l vosk_s vosk_l).length = 4 := by
  constructor
  · rfl
  · rfl

/-! ### Opening the output file (src/main.py lines 199-213) -/

/-- Model of output-path resolution and file opening over an abstract file
system, a list of existing paths.  Following the source: when no filename
argument is given, the default "recording.wav" is used and `os.remove`
deletes it first if it exists (lines 204-209); then
`sf.SoundFile(filename, mode='x', ...)` creates the file exclusively,
failing when the path already exists (line 212). -/
def session_start (filenameArg : Option String) (fs : List String) :
    Except String (String × List String) :=
  let resolved :=
    match filenameArg with
    | some f => (f, fs)
    | none => ("recording.wav", fs.filter (fun p => !(p == "recording.wav")))
  if resolved.1 ∈ resolved.2 then Except.error "FileExists"
  else Except.ok (resolved.1, resolved.1 :: resolved.2)

/-- Counterexample to claim C3 as stated: with no filename argument and a
pre-existing "recording.wav", session start does not fail with FileExists;
it deletes the existing file and creates a fresh one in its place. -/
theorem claim_C3_counterexample :
    session_start none ["recording.wav"] =
      Except.ok ("recording.wav", ["recording.wav"]) ∧
    session_start none ["recording.wav"] ≠ Except.error "FileExists" := by
  constructor
  · decide
  · decide

/-- Amended claim C3: when the caller supplies an output path explicitly,
the file is opened in exclusive-create mode — FileExists if the path
already exists, a fresh file otherwise; when no path is supplied, the
default "recording.wav" is first deleted if present and then created, so
a pre-existing default file is replaced rather than protected. -/
theorem claim_C3_amended (f : String) (fs : List String) :
    (f ∈ fs → session_start (some f) fs = Except.error "FileExists") ∧
    (f ∉ fs → session_start (some f) fs = Except.ok (f, f :: fs)) ∧
    session_start none fs =
      Except.ok ("recording.wav",
        "recording.wav" :: fs.filter (fun p => !(p == "recording.wav"))) := by
  refine ⟨?_, ?_, ?_⟩
  · intro hmem
    simp only [session_start]
    rw [if_pos hmem]
  · intro hmem
    simp only [session_start]
    rw [if_neg hmem]
  · simp only [session_start]
    rw [if_neg ?hnm]
    case hnm =>
      intro hmem
      have := List.of_mem_filter hmem
      simp at this

/-- Witness for amended claim C3: an existing explicit path is refused, a
fresh explicit path is created, and the default path is recreated. -/
theorem claim_C3_amended_witness :
    session_start (some "a.wav") ["a.wav"] = Except.error "FileExists" ∧
    session_start (some "b.wav") ["a.wav"] = Except.ok ("b.wav", ["b.wav", "a.wav"]) ∧
    session_start none ["a.wav"] = Except.ok ("recording.wav", ["recording.wav", "a.wav"]) :=
  ⟨(claim_C3_amended "a.wav" ["a.wav"]).1 (by decide),
   (claim_C3_amended "b.wav" ["a.wav"]).2.1 (by decide),
   by
    have h := (claim_C3_amended "b.wav" ["a.wav"]).2.2
    rw [h]
    decide⟩

/-! ### The Vosk accumulation loop (src/main.py lines 117-127) -/

/-- The loop body's text accumulation.  The chunk loop is abstracted by the
sequence of recognizer outcomes, one entry per chunk read: `none` when
`rec.AcceptWaveform(data)` returns false (the code never reads the partial
result), `some t` when it returns true with result text `t`; the code then
runs `text = text + " " + jres["text"]`. -/
def vosk_accum (events : List (Option String)) : String :=
  events.foldl
    (fun text e =>
      match e with
      | some t => text ++ " " ++ t
      | none => text) ""

/-- Model of `ASR.vosk_recognition`'s returned sentence (line 127):
`sentence = text + " " + jres["text"]` with the final result appended
after the loop. -/
def vosk_recognition (events : List (Option String)) (finalText : String) : String :=
  vosk_accum events ++ " " ++ finalText

/-- Space-separated word content of a string (empty tokens dropped). -/
def spaceWords (s : String) : List (List Char) :=
  (splitOnSpace s.data).filter (fun w => !w.isEmpty)

theorem splitOnSpace_append_space (a b : List Char) :
    splitOnSpace (a ++ ' ' :: b) = splitOnSpace a ++ splitOnSpace b := by
  induction a with
  | nil =>
    obtain ⟨w, ws, hb⟩ : ∃ w ws, splitOnSpace b = w :: ws := by
      cases hsp : splitOnSpace b with
      | nil => exact absurd hsp (splitOnSpace_ne_nil b)
      | cons w ws => exact ⟨w, ws, rfl⟩
    show splitOnSpace (' ' :: b) = [[]] ++ splitOnSpace b
    rw [splitOnSpace, hb]
    simp
  | cons c a ih =>
    obtain ⟨w, ws, ha⟩ : ∃ w ws, splitOnSpace a = w :: ws := by
      cases hsp : splitOnSpace a with
      | nil => exact absurd hsp (splitOnSpace_ne_nil a)
      | cons w ws => exact ⟨w, ws, rfl⟩
    show splitOnSpace (c :: (a ++ ' ' :: b)) = splitOnSpace (c :: a) ++ splitOnSpace b
    rw [splitOnSpace, ih, ha]
    rw [show splitOnSpace (c :: a) = if c = ' ' then [] :: w :: ws else (c :: w) :: ws from by
      rw [splitOnSpace, ha]]
    by_cases hc : c = ' '
    · rw [if_pos hc]
      simp [if_pos hc]
    · rw [if_neg hc]
      simp [if_neg hc]

theorem wordsL_append_space (a b : List Char) :
    (splitOnSpace (a ++ ' ' :: b)).filter (fun w => !w.isEmpty) =
      (splitOnSpace a).filter (fun w => !w.isEmpty) ++
        (splitOnSpace b).filter (fun w => !w.isEmpty) := by
  rw [splitOnSpace_append_space, List.filter_append]

theorem spaceWords_concat (x y : String) :
    spaceWords (x ++ " " ++ y) = spaceWords x ++ spaceWords y := by
  unfold spaceWords
  rw [show (x ++ " " ++ y).data = x.data ++ ' ' :: y.data from by
    simp [String.data_append]]
  exact wordsL_append_space x.data y.data

theorem vosk_accum_append_some (events : List (Option String)) (t : String) :
    vosk_accum (events ++ [some t]) = vosk_accum events ++ " " ++ t := by
  unfold vosk_accum
  rw [List.foldl_append]
  rfl

theorem vosk_accum_append_none (events : List (Option String)) :
    vosk_accum (events ++ [none]) = vosk_accum events := by
  unfold vosk_accum
  rw [List.foldl_append]
  rfl

theorem spaceWords_empty : spaceWords "" = [] := rfl

theorem vosk_accum_words_filter (events : List (Option String)) :
    spaceWords (vosk_accum events) =
      spaceWords (vosk_accum (events.filter (fun e => !(e == some "")))) := by
  induction events using List.reverseRecOn with
  | nil => rfl
  | append_singleton es e ih =>
    rw [List.filter_append]
    cases e with
    | none =>
      rw [vosk_accum_append_none]
      rw [show (List.filter (fun e => !(e == some "")) [none] : List (Option String))
          = [none] from rfl]
      rw [vosk_accum_append_none]
      exact ih
    | some t =>
      by_cases ht : t = ""
      · subst ht
        rw [vosk_accum_append_some]
        rw [show (List.filter (fun e => !(e == some "")) [some ""] : List (Option String))
            = [] from rfl]
        rw [List.append_nil, spaceWords_concat, spaceWords_empty, List.append_nil]
        exact ih
      · have hb : ((some t == some "") : Bool) = false := by
          simp only [beq_eq_false_iff_ne, ne_eq, Option.some.injEq]
          exact ht
        have hf : (List.filter (fun e => !(e == some "")) [some t] : List (Option String))
            = [some t] := by
          rw [List.filter_cons]
          rw [hb]
          simp
        rw [vosk_accum_append_some, hf, vosk_accum_append_some]
        rw [spaceWords_concat, spaceWords_concat, ih]

/-- Counterexample to claim C8 as stated: two consecutive accepted chunks
with empty result text do change the returned sentence — each one appends
a separator space ("   ok" instead of " ok"). -/
theorem claim_C8_counterexample :
    vosk_recognition [some "", some ""] "ok" ≠ vosk_recognition [] "ok" := by
  decide

/-- Amended claim C8: the loop appends every accepted intermediate result
with a single space separator (including empty results, each of which
contributes exactly one separator space), ignores non-accepted chunks, and
appends the final end-of-stream result last; consequently empty
intermediate results contribute nothing to the space-separated word
content of the returned sentence, only separator spaces. -/
theorem claim_C8_amended (events : List (Option String)) (finalText t : String) :
    vosk_recognition events finalText = vosk_accum events ++ " " ++ finalText ∧
    vosk_accum (events ++ [some t]) = vosk_accum events ++ " " ++ t ∧
    vosk_accum (events ++ [none]) = vosk_accum events ∧
    spaceWords (vosk_recognition events finalText) =
      spaceWords (vosk_recognition (events.filter (fun e => !(e == some ""))) finalText) := by
  refine ⟨rfl, vosk_accum_append_some events t, vosk_accum_append_none events, ?_⟩
  unfold vosk_recognition
  rw [spaceWords_concat, spaceWords_concat, vosk_accum_words_filter]

end AsrDemo